import Mathlib

/-
Shallow embedding of the cache engine in src/cache/cache.go (package cache).

Modelling conventions, stated once here:

* Heap pointers to CacheEntry values are modelled by an arena: `Cache.entries`
  is a list of entries and a "pointer" is the index (an id) at which the entry
  was appended. `nil` pointers are `none`, `&e` is `some id`. Entry ids are
  never reused, matching Go heap allocation; pointer equality (`entry == c.head`)
  is id equality.
* The Go map `items map[K]*CacheEntry[V]` is an association list `List (K × Nat)`
  from key to entry id. Insertion removes the old binding and appends, so key
  lists stay duplicate-free, as in a Go map. Go map iteration order is
  unspecified; the model iterates in list order. The two iterating operations
  (removeTail's key scan, where at most one key can match because ids are
  fresh, and Cleanup, which deletes only the binding under scrutiny) produce
  order-independent results, so fixing this order loses nothing.
* `time.Time` instants are `Nat`, `time.Duration` is `Int` (it can be
  negative). The zero `time.Time` stored in `expiresAt` when Set is given a
  non-positive duration is `none`. `time.Now()` is passed in as an explicit
  `now` argument, held fixed for one operation. `time.Now().After(t)` is the
  strict comparison `t < now`.
* The readiness channel `ready chan struct{}` is a `Bool`: `false` while the
  channel is open, `true` once closed. The embedding is sequential (one
  operation runs to completion at a time), so a `<-entry.ready` receive either
  returns at once (entry ready) or blocks forever (`GetOutcome.blocked`),
  since no other thread can close the channel.
* Go zero values (`var key K`, the zero `V` inside a freshly reserved entry)
  are `default` from `Inhabited`.
* Calling a nil `compute` function, which Go punishes with a run-time panic,
  is the outcome `GetOutcome.panicked`; the state reached up to the panic is
  still recorded.
* The Go method `Get` retries itself recursively after deleting an expired
  entry. After that delete the key is absent, so the retry's fast-path lookup
  and its double-check lookup both miss and the retry is exactly the miss
  path; the model therefore enters `getMissPath` directly (see the lemma
  `Get_absent_eq_getMissPath`, which shows a full `Get` on an absent key is
  that same function).
-/

namespace Memcache

/-- Go struct CacheEntry[V]: value, expiresAt, ready channel, prev/next links. -/
structure CacheEntry (V : Type) where
  value : V
  expiresAt : Option Nat
  ready : Bool
  prev : Option Nat
  next : Option Nat
deriving DecidableEq

instance {V : Type} [Inhabited V] : Inhabited (CacheEntry V) :=
  ⟨{ value := default, expiresAt := none, ready := false, prev := none, next := none }⟩

/-- Go struct Cache[K, V]: the lock is erased (the embedding is sequential),
items is the key-to-entry-id map, entries is the allocation arena. -/
structure Cache (K V : Type) where
  items : List (K × Nat)
  entries : List (CacheEntry V)
  capacity : Nat
  head : Option Nat
  tail : Option Nat
deriving DecidableEq

variable {K V E : Type}

/-- Dereference an entry id (out-of-range ids never occur in reachable states). -/
def Cache.getEntry [Inhabited V] (c : Cache K V) (i : Nat) : CacheEntry V :=
  c.entries.getD i default

/-- Write an entry back through its id. -/
def Cache.setEntry (c : Cache K V) (i : Nat) (e : CacheEntry V) : Cache K V :=
  { c with entries := c.entries.set i e }

/-- The Go assignment `c.items = l` (explicit so that states stay readable). -/
def Cache.setItems (c : Cache K V) (l : List (K × Nat)) : Cache K V :=
  { c with items := l }

/-- The Go assignment `c.head = h`. -/
def Cache.setHead (c : Cache K V) (h : Option Nat) : Cache K V :=
  { c with head := h }

/-- The Go assignment `c.tail = t`. -/
def Cache.setTail (c : Cache K V) (t : Option Nat) : Cache K V :=
  { c with tail := t }

/-- Allocation of a fresh entry: append to the arena (its id is the old
arena length). -/
def Cache.appendEntry (c : Cache K V) (e : CacheEntry V) : Cache K V :=
  { c with entries := c.entries ++ [e] }

/-- Go map lookup `c.items[key]`. -/
def mapLookup [DecidableEq K] : List (K × Nat) → K → Option Nat
  | [], _ => none
  | p :: rest, k => if p.1 = k then some p.2 else mapLookup rest k

/-- Go map `delete(c.items, key)` (key lists are duplicate-free, so removing
every binding of the key equals removing the one binding). -/
def mapDelete [DecidableEq K] : List (K × Nat) → K → List (K × Nat)
  | [], _ => []
  | p :: rest, k => if p.1 = k then mapDelete rest k else p :: mapDelete rest k

/-- Go map assignment `c.items[key] = e`: overwrite the binding. -/
def mapInsert [DecidableEq K] (l : List (K × Nat)) (k : K) (i : Nat) : List (K × Nat) :=
  mapDelete l k ++ [(k, i)]

/-- The expiry test `!entry.expiresAt.IsZero() && time.Now().After(entry.expiresAt)`. -/
def isExpiredB (t : Option Nat) (now : Nat) : Bool :=
  match t with
  | none => false
  | some e => decide (e < now)

/-- func New: non-positive capacity is replaced by the default 1000. -/
def New (K V : Type) (capacity : Int) : Cache K V :=
  { items := []
    entries := []
    capacity := (if capacity ≤ 0 then 1000 else capacity).toNat
    head := none
    tail := none }

/-- The Go statement `if entry.prev != nil { entry.prev.next = v }` for the
entry with id eid (a no-op when prev is nil). -/
def fixPrevNext [Inhabited V] (c : Cache K V) (eid : Nat) (v : Option Nat) : Cache K V :=
  match (c.getEntry eid).prev with
  | some p => c.setEntry p { c.getEntry p with next := v }
  | none => c

/-- The Go statement `if entry.next != nil { entry.next.prev = v }` for the
entry with id eid (a no-op when next is nil). -/
def fixNextPrev [Inhabited V] (c : Cache K V) (eid : Nat) (v : Option Nat) : Cache K V :=
  match (c.getEntry eid).next with
  | some n => c.setEntry n { c.getEntry n with prev := v }
  | none => c

/-- func (c *Cache) moveToFront(entry): unlink from the current position and
relink at the head. Each Go statement is translated in order, re-reading the
state mutated so far, so aliasing between the entry and its neighbours is
treated exactly as the pointer code treats it. -/
def moveToFront [Inhabited V] (c : Cache K V) (eid : Nat) : Cache K V :=
  if c.head = some eid then c
  else
    let c1 := fixPrevNext c eid (c.getEntry eid).next
    let c2 := fixNextPrev c1 eid (c1.getEntry eid).prev
    let c3 := if c2.tail = some eid then c2.setTail (c2.getEntry eid).prev else c2
    let c4 := c3.setEntry eid { c3.getEntry eid with prev := none, next := c3.head }
    let c5 := match c4.head with
      | some h => c4.setEntry h { c4.getEntry h with prev := some eid }
      | none => c4
    let c6 := c5.setHead (some eid)
    if c6.tail = none then c6.setTail (some eid) else c6

/-- func (c *Cache) removeTail: scan the map for a key owning the tail entry
(Go leaves `key` at its zero value when no key matches, and then deletes that
zero key), unlink the tail. -/
def removeTail [DecidableEq K] [Inhabited K] [Inhabited V] (c : Cache K V) : Cache K V :=
  match c.tail with
  | none => c
  | some t =>
    let key := match c.items.find? (fun p => decide (p.2 = t)) with
      | some p => p.1
      | none => default
    let c1 := c.setItems (mapDelete c.items key)
    let c2 := fixPrevNext c1 t none
    let c3 := c2.setTail (c2.getEntry t).prev
    if c3.tail = none then c3.setHead none else c3

/-- The unlink block that appears verbatim in both Delete and Cleanup:
fix prev's next, fix next's prev, advance head and tail if the entry was one. -/
def unlinkEntry [Inhabited V] (c : Cache K V) (eid : Nat) : Cache K V :=
  let c1 := fixPrevNext c eid (c.getEntry eid).next
  let c2 := fixNextPrev c1 eid (c1.getEntry eid).prev
  let c3 := if c2.head = some eid then c2.setHead (c2.getEntry eid).next else c2
  if c3.tail = some eid then c3.setTail (c3.getEntry eid).prev else c3

/-- Result of a Get: the returned (value, error) pair, or the sequential fate
of a call that never returns. -/
inductive GetOutcome (V E : Type) where
  | ok : V → GetOutcome V E
  | err : V → E → GetOutcome V E
  | panicked : GetOutcome V E
  | blocked : GetOutcome V E
deriving DecidableEq

/-- A Get call's outcome, the cache state it leaves behind, and whether the
`compute()` call site was reached (instrumentation only). -/
structure GetResult (K V E : Type) where
  out : GetOutcome V E
  st : Cache K V
  invoked : Bool
deriving DecidableEq

/-- Lines 105-107 of Get's expired branch: take the write lock and delete the
key's current binding, with no re-check of what the key maps to now. -/
def expiredRemove [DecidableEq K] (c : Cache K V) (key : K) : Cache K V :=
  c.setItems (mapDelete c.items key)

/-- The part of Get that runs from `c.mu.Lock()` at line 120: double-check the
key, evict if at capacity, reserve a not-yet-ready entry, run compute, publish
or roll back. `compute` is `none` for a nil function argument, and otherwise
carries the (value, error) pair it would return, with `none` as the nil error. -/
def getMissPath [DecidableEq K] [Inhabited K] [Inhabited V]
    (c : Cache K V) (key : K) (compute : Option (V × Option E)) : GetResult K V E :=
  match mapLookup c.items key with
  | some eid =>
      if (c.getEntry eid).ready then ⟨.ok (c.getEntry eid).value, c, false⟩
      else ⟨.blocked, c, false⟩
  | none =>
      let c1 := if c.capacity ≤ c.items.length then removeTail c else c
      let eid := c1.entries.length
      let c2 := c1.appendEntry
        { value := default, expiresAt := none, ready := false, prev := none, next := none }
      let c3 := c2.setItems (mapInsert c2.items key eid)
      let c4 := moveToFront c3 eid
      match compute with
      | none => ⟨.panicked, c4, true⟩
      | some (v, some e) =>
          let c5 := c4.setItems (mapDelete c4.items key)
          let c6 := c5.setEntry eid { c5.getEntry eid with ready := true }
          ⟨.err v e, c6, true⟩
      | some (v, none) =>
          let c7 := c4.setEntry eid { c4.getEntry eid with value := v, ready := true }
          ⟨.ok v, c7, true⟩

/-- func (c *Cache) Get: fast-path lookup; on a ready hit check expiry (delete
and retry, which lands in the miss path) or promote and return; on a miss run
the locked miss path. -/
def Get [DecidableEq K] [Inhabited K] [Inhabited V]
    (c : Cache K V) (now : Nat) (key : K) (compute : Option (V × Option E)) :
    GetResult K V E :=
  match mapLookup c.items key with
  | some eid =>
      if (c.getEntry eid).ready then
        if isExpiredB (c.getEntry eid).expiresAt now then
          getMissPath (expiredRemove c key) key compute
        else
          let c2 := moveToFront c eid
          ⟨.ok (c2.getEntry eid).value, c2, false⟩
      else ⟨.blocked, c, false⟩
  | none => getMissPath c key compute

/-- func (c *Cache) Set: evict if at capacity, build an already-ready entry
(expiry only for a positive duration), insert, move to front. -/
def Set [DecidableEq K] [Inhabited K] [Inhabited V]
    (c : Cache K V) (now : Nat) (key : K) (value : V) (expiration : Int) : Cache K V :=
  let c1 := if c.capacity ≤ c.items.length then removeTail c else c
  let eid := c1.entries.length
  let e : CacheEntry V :=
    { value := value
      expiresAt := if 0 < expiration then some (now + expiration.toNat) else none
      ready := true
      prev := none
      next := none }
  let c2 := c1.appendEntry e
  let c3 := c2.setItems (mapInsert c2.items key eid)
  moveToFront c3 eid

/-- func (c *Cache) Delete: unlink from the list and delete the binding;
no-op when the key is absent. -/
def Delete [DecidableEq K] [Inhabited V] (c : Cache K V) (key : K) : Cache K V :=
  match mapLookup c.items key with
  | none => c
  | some eid => (unlinkEntry c eid).setItems (mapDelete (unlinkEntry c eid).items key)

/-- func (c *Cache) Clear: fresh map, nil head and tail (the arena keeps the
now-unreachable old allocations, as the Go heap does). -/
def Clear (c : Cache K V) : Cache K V :=
  { c with items := [], head := none, tail := none }

/-- func (c *Cache) Size. -/
def Size (c : Cache K V) : Nat :=
  c.items.length

/-- One iteration of Cleanup's range loop: if the entry under this binding has
expired, unlink it and delete the binding. -/
def cleanupStep [DecidableEq K] [Inhabited V] (now : Nat) (c : Cache K V) (kv : K × Nat) :
    Cache K V :=
  if isExpiredB (c.getEntry kv.2).expiresAt now then
    (unlinkEntry c kv.2).setItems (mapDelete (unlinkEntry c kv.2).items kv.1)
  else c

/-- func (c *Cache) Cleanup: one timestamp for the whole scan, then the range
loop over the bindings present when the scan starts (the loop only ever
deletes the binding it is visiting, so ranging over the start-of-scan list is
exactly Go's range-with-delete semantics). -/
def Cleanup [DecidableEq K] [Inhabited V] (c : Cache K V) (now : Nat) : Cache K V :=
  c.items.foldl (cleanupStep now) c

/-- The cache-visible content of an entry: value, expiry, readiness. The
prev/next links are owned by the recency list and excluded. -/
def contentOf (e : CacheEntry V) : V × Option Nat × Bool :=
  (e.value, e.expiresAt, e.ready)

/-- Walk the recency list from the head along next links, with enough fuel to
exhaust any duplicate-free list. -/
def chainFrom [Inhabited V] (c : Cache K V) : Option Nat → Nat → List Nat
  | _, 0 => []
  | none, _ => []
  | some i, fuel + 1 => i :: chainFrom c (c.getEntry i).next fuel

/-- The node ids on the recency list, head first. -/
def listNodes [Inhabited V] (c : Cache K V) : List Nat :=
  chainFrom c c.head (c.entries.length + 1)

/-- The id of the first node of a segment, or `t` when the segment is empty. -/
def headOr (ys : List Nat) (t : Option Nat) : Option Nat :=
  match ys with
  | [] => t
  | j :: _ => some j

/-- The id of the last node of a segment, or `p` when the segment is empty. -/
def lastOr (xs : List Nat) (p : Option Nat) : Option Nat :=
  match xs with
  | [] => p
  | i :: rest => lastOr rest (some i)

/-- Bool test: consecutive nodes of the segment are linked by next, and the
last node's next is `t` (vacuous for an empty segment). -/
def chainNext [Inhabited V] (c : Cache K V) : List Nat → Option Nat → Bool
  | [], _ => true
  | i :: rest, t => ((c.getEntry i).next = headOr rest t) && chainNext c rest t

/-- Bool test: the first node's prev is `p` and each later node's prev is its
predecessor. -/
def chainPrev [Inhabited V] (c : Cache K V) : Option Nat → List Nat → Bool
  | _, [] => true
  | p, i :: rest => ((c.getEntry i).prev = p) && chainPrev c (some i) rest

/-- The recency list geometry is faithfully described by the id list ns:
no duplicates, ids in range, head and tail at the ends, and both link
directions consistent. -/
def Geom [Inhabited V] (c : Cache K V) (ns : List Nat) : Prop :=
  ns.Nodup ∧ (∀ i ∈ ns, i < c.entries.length) ∧
  c.head = ns.head? ∧ c.tail = ns.getLast? ∧
  chainNext c ns none = true ∧ chainPrev c none ns = true

/-- The invariant from the specification's data model: the recency list is
exactly the entries of the index (keys and entry ids duplicate-free), with
consistent links and correct head/tail. -/
def Linked [Inhabited V] (c : Cache K V) (ns : List Nat) : Prop :=
  Geom c ns ∧
  (c.items.map Prod.fst).Nodup ∧ (c.items.map Prod.snd).Nodup ∧
  (∀ i ∈ ns, i ∈ c.items.map Prod.snd) ∧ (∀ i ∈ c.items.map Prod.snd, i ∈ ns)

instance [DecidableEq K] [Inhabited V] (c : Cache K V) (ns : List Nat) :
    Decidable (Geom c ns) := by
  unfold Geom; infer_instance

instance [DecidableEq K] [Inhabited V] (c : Cache K V) (ns : List Nat) :
    Decidable (Linked c ns) := by
  unfold Linked; infer_instance

/-! Concrete scenarios used by the claim theorems. Keys and values are `Nat`
(`default = 0` is the Go zero value, distinct from every key used), the
error type is `Unit` (only the presence of an error matters). -/

/-- Capacity 2; overwrite key 2 while its old entry is not the tail, then two
more inserts: the dangling old entry becomes the tail, removeTail finds no key
for it and deletes the zero key (a no-op on the map). -/
def c1seq : Cache Nat Nat :=
  Set (Set (Set (Set (Set (New Nat Nat 2) 0 1 10 0) 0 2 20 0) 0 2 99 0) 0 3 30 0) 0 4 40 0

/-- One Set on a fresh capacity-2 cache. -/
def c2first : Cache Nat Nat := Set (New Nat Nat 2) 0 1 10 0

/-- A second Set overwriting the same key, below capacity. -/
def c2second : Cache Nat Nat := Set c2first 0 1 20 0

/-- A Get on an empty cache whose compute fails (returns the zero value and an
error). -/
def c4fail : GetResult Nat Nat Unit := Get (New Nat Nat 2) 0 1 (some (0, some ()))

/-- The immediately following Get on the same key with a succeeding compute. -/
def c4retry : GetResult Nat Nat Unit := Get c4fail.st 0 1 (some (7, none))

/-- A Get with a nil compute function on an absent key. -/
def c5res : GetResult Nat Nat Unit := Get (New Nat Nat 2) 0 1 none

/-- The state seen by the expired branch's delete after a concurrent
repopulation: key 1 maps to entry 0, created at time 0 with TTL 5, so it is
fresh (not expired) at now = 0. -/
def c6fresh : Cache Nat Nat := Set (New Nat Nat 2) 0 1 9 5

/-- A state in which the double-check of the miss path finds the key present:
key 1 maps to entry 0 (value 9, expires at 5), as if a concurrent caller
inserted it between the fast-path lookup and the write lock. -/
def c7st : Cache Nat Nat := Set (New Nat Nat 2) 0 1 9 5

/-- Running the locked miss path on that state with a compute that would
return 77. -/
def c7res : GetResult Nat Nat Unit := getMissPath c7st 1 (some (77, none))

/-- LRU scenario of the spec with A,B,C,D = 1,2,3,4: capacity 3, insert A, B,
C, access A, insert D. -/
def c8afterGetA : GetResult Nat Nat Unit :=
  Get (Set (Set (Set (New Nat Nat 3) 0 1 1 0) 0 2 2 0) 0 3 3 0) 0 1 none

/-- The state after Set(D,4,0), where the eviction decision has been made. -/
def c8final : Cache Nat Nat := Set c8afterGetA.st 0 4 4 0

/-- The follow-up reads, expired-free, each without a compute function; the
read of the absent B is performed on the final state. -/
def c8gA : GetResult Nat Nat Unit := Get c8final 0 1 none

def c8gC : GetResult Nat Nat Unit := Get c8gA.st 0 3 none

def c8gD : GetResult Nat Nat Unit := Get c8gC.st 0 4 none

def c8gB : GetResult Nat Nat Unit := Get c8gD.st 0 2 none

/-- A consistent cache with three entries: key 1 never expires, key 2 expires
at time 3, key 3 expires at time 100 (all inserted at time 0). -/
def c9cache : Cache Nat Nat :=
  Set (Set (Set (New Nat Nat 10) 0 1 10 0) 0 2 20 3) 0 3 30 100

/-! Helper lemmas. -/

theorem mapLookup_mapDelete_self [DecidableEq K] (l : List (K × Nat)) (k : K) :
    mapLookup (mapDelete l k) k = none := by
  induction l with
  | nil => rfl
  | cons p rest ih =>
    by_cases h : p.1 = k
    · simp [mapDelete, h, ih]
    · simp [mapDelete, mapLookup, h, ih]

/-- A full Get on an absent key is exactly the locked miss path; this justifies
modelling the expired branch's `return c.Get(key, compute)` (which runs on a
state where the key was just deleted) as a direct call of `getMissPath`. -/
theorem Get_absent_eq_getMissPath [DecidableEq K] [Inhabited K] [Inhabited V]
    (c : Cache K V) (now : Nat) (key : K) (compute : Option (V × Option E))
    (h : mapLookup c.items key = none) :
    Get c now key compute = getMissPath c key compute := by
  simp only [Get, h]

theorem length_le_of_nodup_lt (ns : List Nat) (L : Nat) (h : ns.Nodup)
    (hb : ∀ i ∈ ns, i < L) : ns.length ≤ L := by
  classical
  have hsub : ns.toFinset ⊆ Finset.range L := by
    intro x hx
    exact Finset.mem_range.mpr (hb x (List.mem_toFinset.mp hx))
  have hcard := Finset.card_le_card hsub
  rwa [List.toFinset_card_of_nodup h, Finset.card_range] at hcard

theorem chainFrom_eq [Inhabited V] (c : Cache K V) :
    ∀ (ns : List Nat) (fuel : Nat), chainNext c ns none = true →
      ns.length ≤ fuel → chainFrom c ns.head? fuel = ns := by
  intro ns
  induction ns with
  | nil =>
    intro fuel _ _
    cases fuel <;> rfl
  | cons i rest ih =>
    intro fuel hchain hfuel
    cases fuel with
    | zero => exact absurd hfuel (by simp)
    | succ f =>
      have hnext : (c.getEntry i).next = rest.head? := by
        have hh := (Bool.and_eq_true _ _).mp hchain
        have h1 := of_decide_eq_true hh.1
        cases rest with
        | nil => exact h1
        | cons j tl => exact h1
      have hrest : chainNext c rest none = true := ((Bool.and_eq_true _ _).mp hchain).2
      have hlen : rest.length ≤ f := by simpa using hfuel
      simp only [List.head?_cons, chainFrom, hnext]
      exact congrArg (i :: ·) (ih f hrest hlen)

/-- A cache satisfying `Linked c ns` really has ns as its recency list. -/
theorem linked_listNodes [Inhabited V] [DecidableEq K] (c : Cache K V) (ns : List Nat)
    (h : Linked c ns) : listNodes c = ns := by
  obtain ⟨⟨hnd, hb, hhead, _, hcn, _⟩, _⟩ := h
  have hlen : ns.length ≤ c.entries.length := length_le_of_nodup_lt ns _ hnd hb
  have := chainFrom_eq c ns (c.entries.length + 1) hcn (Nat.le_succ_of_le hlen)
  rw [listNodes, hhead, this]

theorem list_getD_set_ne {α : Type _} (l : List α) (i j : Nat) (e d : α) (h : i ≠ j) :
    (l.set j e).getD i d = l.getD i d := by
  induction l generalizing i j with
  | nil => rfl
  | cons a l ih =>
    cases j with
    | zero =>
      cases i with
      | zero => exact absurd rfl h
      | succ i => rfl
    | succ j =>
      cases i with
      | zero => rfl
      | succ i => exact ih i j (fun hij => h (congrArg Nat.succ hij))

theorem list_getD_set_self {α : Type _} (l : List α) (j : Nat) (e d : α)
    (h : j < l.length) : (l.set j e).getD j d = e := by
  induction l generalizing j with
  | nil => exact absurd h (by simp)
  | cons a l ih =>
    cases j with
    | zero => rfl
    | succ j => exact ih j (Nat.lt_of_succ_lt_succ h)

theorem list_set_oob {α : Type _} (l : List α) (j : Nat) (e : α)
    (h : l.length ≤ j) : l.set j e = l := by
  induction l generalizing j with
  | nil => rfl
  | cons a l ih =>
    cases j with
    | zero => exact absurd h (by simp)
    | succ j => exact congrArg (a :: ·) (ih j (Nat.le_of_succ_le_succ h))

theorem list_getD_append_left {α : Type _} (l₁ l₂ : List α) (i : Nat) (d : α)
    (h : i < l₁.length) : (l₁ ++ l₂).getD i d = l₁.getD i d := by
  induction l₁ generalizing i with
  | nil => exact absurd h (by simp)
  | cons a l ih =>
    cases i with
    | zero => rfl
    | succ i => exact ih i (Nat.lt_of_succ_lt_succ h)

theorem list_getD_append_length {α : Type _} (l : List α) (e d : α) :
    (l ++ [e]).getD l.length d = e := by
  induction l with
  | nil => rfl
  | cons a l ih => exact ih

@[simp] theorem getEntry_update_items [Inhabited V] (c : Cache K V) (l : List (K × Nat))
    (i : Nat) : ({ c with items := l } : Cache K V).getEntry i = c.getEntry i := rfl

@[simp] theorem getEntry_update_head [Inhabited V] (c : Cache K V) (h : Option Nat)
    (i : Nat) : ({ c with head := h } : Cache K V).getEntry i = c.getEntry i := rfl

@[simp] theorem getEntry_update_tail [Inhabited V] (c : Cache K V) (t : Option Nat)
    (i : Nat) : ({ c with tail := t } : Cache K V).getEntry i = c.getEntry i := rfl

theorem getEntry_setEntry_ne [Inhabited V] (c : Cache K V) (j i : Nat) (e : CacheEntry V)
    (h : i ≠ j) : (c.setEntry j e).getEntry i = c.getEntry i :=
  list_getD_set_ne c.entries i j e default h

theorem getEntry_setEntry_self [Inhabited V] (c : Cache K V) (j : Nat) (e : CacheEntry V)
    (h : j < c.entries.length) : (c.setEntry j e).getEntry j = e :=
  list_getD_set_self c.entries j e default h

theorem setEntry_oob (c : Cache K V) (j : Nat) (e : CacheEntry V)
    (h : c.entries.length ≤ j) : c.setEntry j e = c := by
  show ({ c with entries := c.entries.set j e } : Cache K V) = c
  rw [list_set_oob c.entries j e h]

theorem list_getD_set_proj {β : Type _} (f : CacheEntry V → β) (l : List (CacheEntry V))
    (j i : Nat) (e d : CacheEntry V) (h : f e = f (l.getD j d)) :
    f ((l.set j e).getD i d) = f (l.getD i d) := by
  by_cases hij : i = j
  · subst hij
    by_cases hj : i < l.length
    · rw [list_getD_set_self l i e d hj, h]
    · rw [list_set_oob l i e (Nat.le_of_not_lt hj)]
  · rw [list_getD_set_ne l i j e d hij]

theorem list_getD_set_value (l : List (CacheEntry V)) (j i : Nat) (e d : CacheEntry V)
    (h : e.value = (l.getD j d).value) :
    ((l.set j e).getD i d).value = (l.getD i d).value :=
  list_getD_set_proj CacheEntry.value l j i e d h

theorem list_getD_set_expiresAt (l : List (CacheEntry V)) (j i : Nat) (e d : CacheEntry V)
    (h : e.expiresAt = (l.getD j d).expiresAt) :
    ((l.set j e).getD i d).expiresAt = (l.getD i d).expiresAt :=
  list_getD_set_proj CacheEntry.expiresAt l j i e d h

theorem list_getD_set_ready (l : List (CacheEntry V)) (j i : Nat) (e d : CacheEntry V)
    (h : e.ready = (l.getD j d).ready) :
    ((l.set j e).getD i d).ready = (l.getD i d).ready :=
  list_getD_set_proj CacheEntry.ready l j i e d h

theorem items_setEntry (c : Cache K V) (j : Nat) (e : CacheEntry V) :
    (c.setEntry j e).items = c.items := rfl

@[simp] theorem getEntry_setItems [Inhabited V] (c : Cache K V) (l : List (K × Nat))
    (i : Nat) : (c.setItems l).getEntry i = c.getEntry i := rfl

@[simp] theorem getEntry_setHead [Inhabited V] (c : Cache K V) (h : Option Nat)
    (i : Nat) : (c.setHead h).getEntry i = c.getEntry i := rfl

@[simp] theorem getEntry_setTail [Inhabited V] (c : Cache K V) (t : Option Nat)
    (i : Nat) : (c.setTail t).getEntry i = c.getEntry i := rfl

@[simp] theorem items_setHead (c : Cache K V) (h : Option Nat) :
    (c.setHead h).items = c.items := rfl

@[simp] theorem items_setTail (c : Cache K V) (t : Option Nat) :
    (c.setTail t).items = c.items := rfl

@[simp] theorem items_setItems (c : Cache K V) (l : List (K × Nat)) :
    (c.setItems l).items = l := rfl

@[simp] theorem items_appendEntry (c : Cache K V) (e : CacheEntry V) :
    (c.appendEntry e).items = c.items := rfl

theorem contentOf_getEntry_setEntry_link [Inhabited V] (c : Cache K V) (j i : Nat)
    (e : CacheEntry V) (hv : e.value = (c.getEntry j).value)
    (hx : e.expiresAt = (c.getEntry j).expiresAt) (hr : e.ready = (c.getEntry j).ready) :
    contentOf ((c.setEntry j e).getEntry i) = contentOf (c.getEntry i) := by
  show contentOf ((c.entries.set j e).getD i default) = contentOf (c.entries.getD i default)
  unfold contentOf
  rw [list_getD_set_value c.entries j i e default hv,
    list_getD_set_expiresAt c.entries j i e default hx,
    list_getD_set_ready c.entries j i e default hr]

theorem fixPrevNext_items [Inhabited V] (c : Cache K V) (eid : Nat) (v : Option Nat) :
    (fixPrevNext c eid v).items = c.items := by
  unfold fixPrevNext
  cases (c.getEntry eid).prev <;> rfl

theorem fixNextPrev_items [Inhabited V] (c : Cache K V) (eid : Nat) (v : Option Nat) :
    (fixNextPrev c eid v).items = c.items := by
  unfold fixNextPrev
  cases (c.getEntry eid).next <;> rfl

theorem fixPrevNext_content [Inhabited V] (c : Cache K V) (eid i : Nat) (v : Option Nat) :
    contentOf ((fixPrevNext c eid v).getEntry i) = contentOf (c.getEntry i) := by
  unfold fixPrevNext
  cases (c.getEntry eid).prev with
  | none => rfl
  | some p => exact contentOf_getEntry_setEntry_link c p i _ rfl rfl rfl

theorem fixNextPrev_content [Inhabited V] (c : Cache K V) (eid i : Nat) (v : Option Nat) :
    contentOf ((fixNextPrev c eid v).getEntry i) = contentOf (c.getEntry i) := by
  unfold fixNextPrev
  cases (c.getEntry eid).next with
  | none => rfl
  | some n => exact contentOf_getEntry_setEntry_link c n i _ rfl rfl rfl

theorem moveToFront_items [Inhabited V] (c : Cache K V) (eid : Nat) :
    (moveToFront c eid).items = c.items := by
  simp only [moveToFront]
  split
  · rfl
  · split <;> split <;> split <;>
      simp [items_setEntry, fixPrevNext_items, fixNextPrev_items]

theorem moveToFront_content [Inhabited V] (c : Cache K V) (eid i : Nat) :
    contentOf ((moveToFront c eid).getEntry i) = contentOf (c.getEntry i) := by
  simp only [moveToFront]
  split
  · rfl
  · split <;> split <;> split <;>
      simp [contentOf_getEntry_setEntry_link, fixPrevNext_content, fixNextPrev_content]

theorem unlinkEntry_items [Inhabited V] (c : Cache K V) (eid : Nat) :
    (unlinkEntry c eid).items = c.items := by
  simp only [unlinkEntry]
  split <;> split <;> simp [fixPrevNext_items, fixNextPrev_items]

theorem unlinkEntry_content [Inhabited V] (c : Cache K V) (eid i : Nat) :
    contentOf ((unlinkEntry c eid).getEntry i) = contentOf (c.getEntry i) := by
  simp only [unlinkEntry]
  split <;> split <;> simp [fixPrevNext_content, fixNextPrev_content]

theorem mapLookup_append [DecidableEq K] (l₁ l₂ : List (K × Nat)) (k : K) :
    mapLookup (l₁ ++ l₂) k =
      match mapLookup l₁ k with
      | some v => some v
      | none => mapLookup l₂ k := by
  induction l₁ with
  | nil => rfl
  | cons p rest ih =>
    by_cases h : p.1 = k
    · simp [mapLookup, h]
    · simp [mapLookup, h, ih]

theorem mapLookup_mapInsert_self [DecidableEq K] (l : List (K × Nat)) (k : K) (i : Nat) :
    mapLookup (mapInsert l k i) k = some i := by
  rw [mapInsert, mapLookup_append, mapLookup_mapDelete_self]
  simp [mapLookup]

theorem mapLookup_mapDelete_ne [DecidableEq K] (l : List (K × Nat)) (k k' : K)
    (h : k ≠ k') : mapLookup (mapDelete l k') k = mapLookup l k := by
  induction l with
  | nil => rfl
  | cons p rest ih =>
    by_cases hp : p.1 = k'
    · have h1 : ¬ p.1 = k := fun hk => h (hk ▸ hp)
      have h2 : ¬ k' = k := fun hk => h hk.symm
      simp [mapDelete, hp, mapLookup, h1, h2, ih]
    · simp [mapDelete, hp, mapLookup, ih]

theorem mem_mapDelete_ne [DecidableEq K] (l : List (K × Nat)) (k : K) (p : K × Nat)
    (h : p ∈ mapDelete l k) : p.1 ≠ k := by
  induction l with
  | nil => simp [mapDelete] at h
  | cons q rest ih =>
    by_cases hq : q.1 = k
    · rw [mapDelete, if_pos hq] at h
      exact ih h
    · rw [mapDelete, if_neg hq] at h
      rcases List.mem_cons.mp h with h | h
      · exact h ▸ hq
      · exact ih h

/-! Claim theorems. -/

/-- Claim C1 (code_bug): the capacity invariant fails. Overwriting a live,
non-tail key leaves its old entry dangling in the recency list; once that
entry reaches the tail, removeTail finds no key owning it, deletes the zero
key instead (a no-op), and the insert proceeds without making room: after the
five Set calls of `c1seq` the cache of capacity 2 holds 3 items. -/
theorem C1_capacity_exceeded : c1seq.capacity = 2 ∧ Size c1seq = 3 := by decide

/-- Claim C2 (code_bug): the list-equals-index invariant holds after one Set
but is destroyed by a second Set that overwrites the same key below capacity:
the old entry stays linked in the recency list while the index maps the key to
the new entry, so no node list can describe the result. -/
theorem C2_overwrite_breaks_invariant :
    Linked c2first [0] ∧ ∀ ns : List Nat, ¬ Linked c2second ns := by
  refine ⟨by decide, ?_⟩
  intro ns h
  have hns : listNodes c2second = ns := linked_listNodes c2second ns h
  have h0 : 0 ∈ ns := by
    rw [← hns]; decide
  have hmem : 0 ∈ c2second.items.map Prod.snd := h.2.2.2.1 0 h0
  have : ¬ (0 ∈ c2second.items.map Prod.snd) := by decide
  exact this hmem

/-- Claim C4 (code_bug): when compute fails, the code does return the error,
signal readiness and leave the key absent (so the retry recomputes, here
returning 7), but it removes the reserved entry only from the index: the entry
is still the sole node of the recency list, and head/tail still point at it. -/
theorem C4_failure_leaves_list_node :
    c4fail.out = GetOutcome.err 0 () ∧
    mapLookup c4fail.st.items 1 = none ∧
    (c4fail.st.getEntry 0).ready = true ∧
    listNodes c4fail.st = [0] ∧
    c4fail.st.head = some 0 ∧ c4fail.st.tail = some 0 ∧
    c4retry.invoked = true ∧ c4retry.out = GetOutcome.ok 7 := by decide

/-- Claim C5 (code_bug): a Get with an absent (nil) compute function on a
missing key reaches the `compute()` call site and panics; there is no
not-found outcome in the code at all. -/
theorem C5_nil_compute_panics : c5res.out = GetOutcome.panicked := by decide

/-- Claim C6, counterexample: the expired branch's delete is not conditioned
on the key still mapping to the same stale, still-expired entry. `c6fresh` is
the state at the moment the delete runs after a concurrent repopulation: key 1
maps to an entry that is not expired at now = 0, and the delete removes it
anyway (the claim says a fresh entry is never deleted). The deletion step does
not even receive the stale entry or the clock: it depends on the key alone. -/
theorem C6_fresh_entry_deleted_cex :
    mapLookup c6fresh.items 1 = some 0 ∧
    isExpiredB (c6fresh.getEntry 0).expiresAt 0 = false ∧
    mapLookup (expiredRemove c6fresh 1).items 1 = none := by decide

/-- Claim C6, amended: when the hit path finds a ready entry that has expired,
Get deletes the key's current binding unconditionally (whatever the key maps
to at that moment) and restarts as the locked miss path. -/
theorem C6_expired_branch_unconditional [DecidableEq K] [Inhabited K] [Inhabited V]
    (c : Cache K V) (now : Nat) (key : K) (compute : Option (V × Option E)) (eid : Nat)
    (h1 : mapLookup c.items key = some eid)
    (h2 : (c.getEntry eid).ready = true)
    (h3 : isExpiredB (c.getEntry eid).expiresAt now = true) :
    Get c now key compute = getMissPath (expiredRemove c key) key compute ∧
    mapLookup (expiredRemove c key).items key = none := by
  constructor
  · simp only [Get, h1, h2, h3, if_true]
  · exact mapLookup_mapDelete_self c.items key

/-- Witness for C6: the amended theorem applied to the concrete expired state
built by Set(1, 9, ttl 5) observed at now = 10. -/
theorem C6_expired_branch_unconditional_witness :
    Get c6fresh 10 1 (some (77, (none : Option Unit))) =
      getMissPath (expiredRemove c6fresh 1) 1 (some (77, none)) ∧
    mapLookup (expiredRemove c6fresh 1).items 1 = none :=
  C6_expired_branch_unconditional c6fresh 10 1 (some (77, none)) 0
    (by decide) (by decide) (by decide)

/-- Claim C7, counterexample: with the key present at the double-check, the
miss path returns the entry's value directly. Here the entry (value 9,
expires at 5) is already expired at now = 10, yet the call returns the stale
9, leaves the cache completely unchanged (no promotion in the recency list,
no removal) and never invokes the supplied compute (which would return 77).
The locked continuation does not even consult the clock. -/
theorem C7_stale_returned_cex :
    isExpiredB (c7st.getEntry 0).expiresAt 10 = true ∧
    c7res = ⟨GetOutcome.ok 9, c7st, false⟩ := by decide

/-- Claim C7, amended: when the write-lock re-check of the miss path finds the
key present with a ready entry, the call returns (entry.value, nil) directly:
no expiration re-check, no promotion, no compute invocation, state unchanged. -/
theorem C7_doublecheck_returns_directly [DecidableEq K] [Inhabited K] [Inhabited V]
    (c : Cache K V) (key : K) (compute : Option (V × Option E)) (eid : Nat)
    (h1 : mapLookup c.items key = some eid)
    (h2 : (c.getEntry eid).ready = true) :
    getMissPath c key compute = ⟨GetOutcome.ok (c.getEntry eid).value, c, false⟩ := by
  simp only [getMissPath, h1, h2, if_true]

/-- Witness for C7: the amended theorem applied to the concrete state in which
key 1 maps to the ready entry 0. -/
theorem C7_doublecheck_returns_directly_witness :
    getMissPath c7st 1 (some (77, (none : Option Unit))) =
      ⟨GetOutcome.ok (c7st.getEntry 0).value, c7st, false⟩ :=
  C7_doublecheck_returns_directly c7st 1 (some (77, none)) 0 (by decide) (by decide)

/-- Claim C8, counterexample: after the spec's five-operation sequence the
read of the evicted B with no compute function does not produce a not-found
error: it panics at the nil `compute()` call (the code has no error outcome
for this case). -/
theorem C8_getB_panics_cex : c8gB.out = GetOutcome.panicked := by decide

/-- Claim C8, amended: on a cache of capacity 3, Set(A,1,0); Set(B,2,0);
Set(C,3,0); Get(A); Set(D,4,0) evicts B — the least-recently-used entry — and
not A: afterwards B is absent from the index while Get(A), Get(C), Get(D) all
succeed with values 1, 3, 4; Get(B) with no compute function panics instead
of failing not-found (entry ids: A, B, C, D were allocated ids 0, 1, 2, 3). -/
theorem C8_lru_evicts_B :
    c8afterGetA.out = GetOutcome.ok 1 ∧
    mapLookup c8final.items 2 = none ∧
    mapLookup c8final.items 1 = some 0 ∧
    mapLookup c8final.items 3 = some 2 ∧
    mapLookup c8final.items 4 = some 3 ∧
    c8gA.out = GetOutcome.ok 1 ∧
    c8gC.out = GetOutcome.ok 3 ∧
    c8gD.out = GetOutcome.ok 4 := by decide

theorem getEntry_appendEntry_length [Inhabited V] (c : Cache K V) (e : CacheEntry V) :
    (c.appendEntry e).getEntry c.entries.length = e :=
  list_getD_append_length c.entries e default

theorem expiresAt_of_contentOf {a : CacheEntry V} {t : V × Option Nat × Bool}
    (h : contentOf a = t) : a.expiresAt = t.2.1 := congrArg (fun q => q.2.1) h

theorem value_of_contentOf {a : CacheEntry V} {t : V × Option Nat × Bool}
    (h : contentOf a = t) : a.value = t.1 := congrArg (fun q => q.1) h

theorem ready_of_contentOf {a : CacheEntry V} {t : V × Option Nat × Bool}
    (h : contentOf a = t) : a.ready = t.2.2 := congrArg (fun q => q.2.2) h

theorem mapInsert_key_unique [DecidableEq K] (l : List (K × Nat)) (k : K) (i : Nat) :
    ∀ p ∈ mapInsert l k i, p.1 = k → p.2 = i := by
  intro p hp hk
  rcases List.mem_append.mp hp with h | h
  · exact absurd hk (mem_mapDelete_ne l k p h)
  · rw [List.mem_singleton.mp h]

/-- A Get on a key bound to a ready, never-expiring entry is a pure hit:
it promotes the entry and returns its value without invoking compute. -/
theorem Get_hit_fresh [DecidableEq K] [Inhabited K] [Inhabited V]
    (c : Cache K V) (now : Nat) (key : K) (compute : Option (V × Option E)) (eid : Nat)
    (h1 : mapLookup c.items key = some eid)
    (h2 : (c.getEntry eid).ready = true)
    (h3 : (c.getEntry eid).expiresAt = none) :
    Get c now key compute =
      ⟨GetOutcome.ok ((moveToFront c eid).getEntry eid).value, moveToFront c eid, false⟩ := by
  simp [Get, h1, h2, h3, isExpiredB]

/-- Through a whole Cleanup scan, a binding to a never-expiring entry and the
content of that entry are untouched (the other bindings scanned may or may not
be removed; each scan step deletes only its own key). -/
theorem cleanup_fold_keeps [DecidableEq K] [Inhabited V] (now : Nat) (k : K) (eid : Nat) :
    ∀ (bs : List (K × Nat)) (c : Cache K V),
      (∀ p ∈ bs, p.1 = k → p.2 = eid) →
      mapLookup c.items k = some eid →
      (c.getEntry eid).expiresAt = none →
      mapLookup (bs.foldl (cleanupStep now) c).items k = some eid ∧
      contentOf ((bs.foldl (cleanupStep now) c).getEntry eid) = contentOf (c.getEntry eid) := by
  intro bs
  induction bs with
  | nil => intro c _ hl _; exact ⟨hl, rfl⟩
  | cons b bs ih =>
    intro c hb hl hx
    rw [List.foldl_cons]
    by_cases he : isExpiredB (c.getEntry b.2).expiresAt now = true
    · have hbk : b.1 ≠ k := by
        intro hk
        have h2 : b.2 = eid := hb b (List.mem_cons_self b bs) hk
        rw [h2, hx] at he
        exact Bool.false_ne_true he
      have hstep : cleanupStep now c b =
          (unlinkEntry c b.2).setItems (mapDelete (unlinkEntry c b.2).items b.1) := by
        unfold cleanupStep
        rw [if_pos he]
      rw [hstep]
      have hcont : contentOf
          (((unlinkEntry c b.2).setItems
            (mapDelete (unlinkEntry c b.2).items b.1)).getEntry eid) =
          contentOf (c.getEntry eid) := by
        rw [getEntry_setItems]
        exact unlinkEntry_content c b.2 eid
      have hlook : mapLookup
          ((unlinkEntry c b.2).setItems
            (mapDelete (unlinkEntry c b.2).items b.1)).items k = some eid := by
        rw [items_setItems, unlinkEntry_items,
          mapLookup_mapDelete_ne c.items k b.1 (fun hh => hbk hh.symm), hl]
      have hx2 : (((unlinkEntry c b.2).setItems
          (mapDelete (unlinkEntry c b.2).items b.1)).getEntry eid).expiresAt = none :=
        (expiresAt_of_contentOf hcont).trans hx
      obtain ⟨ha2, hb2⟩ := ih ((unlinkEntry c b.2).setItems
        (mapDelete (unlinkEntry c b.2).items b.1))
        (fun p hp => hb p (List.mem_cons_of_mem b hp)) hlook hx2
      exact ⟨ha2, hb2.trans hcont⟩
    · have hstep : cleanupStep now c b = c := by
        unfold cleanupStep
        rw [if_neg he]
      rw [hstep]
      exact ih c (fun p hp => hb p (List.mem_cons_of_mem b hp)) hl hx

/-- Claim C10: Set with any non-positive duration (negative as well as zero)
creates an entry whose expiresAt is unset; a later Get at any time returns the
value as a pure hit (the expiry branch cannot fire and compute is not
invoked, the binding surviving untouched), and Cleanup at any time leaves the
binding and the entry's content untouched. -/
theorem C10_nonpositive_ttl_never_expires [DecidableEq K] [Inhabited K] [Inhabited V]
    (c : Cache K V) (now : Nat) (key : K) (v : V) (d : Int) (hd : d ≤ 0) :
    ∃ eid,
      mapLookup (Set c now key v d).items key = some eid ∧
      contentOf ((Set c now key v d).getEntry eid) = (v, none, true) ∧
      (∀ (now₂ : Nat) (compute : Option (V × Option E)),
        (Get (Set c now key v d) now₂ key compute).out = GetOutcome.ok v ∧
        (Get (Set c now key v d) now₂ key compute).invoked = false ∧
        mapLookup (Get (Set c now key v d) now₂ key compute).st.items key = some eid) ∧
      (∀ now₃ : Nat,
        mapLookup (Cleanup (Set c now key v d) now₃).items key = some eid ∧
        contentOf ((Cleanup (Set c now key v d) now₃).getEntry eid) = (v, none, true)) := by
  have ha : mapLookup (Set c now key v d).items key =
      some (if c.capacity ≤ c.items.length then removeTail c else c).entries.length := by
    simp only [Set, moveToFront_items, items_setItems]
    exact mapLookup_mapInsert_self _ _ _
  have hb : contentOf ((Set c now key v d).getEntry
      (if c.capacity ≤ c.items.length then removeTail c else c).entries.length) =
      (v, none, true) := by
    simp only [Set]
    rw [moveToFront_content, getEntry_setItems, getEntry_appendEntry_length]
    simp [contentOf, if_neg (not_lt.mpr hd)]
  have hready := ready_of_contentOf hb
  have hexp := expiresAt_of_contentOf hb
  have hval := value_of_contentOf hb
  have hform : ∃ l, (Set c now key v d).items = mapInsert l key
      (if c.capacity ≤ c.items.length then removeTail c else c).entries.length := by
    simp only [Set, moveToFront_items, items_setItems]
    exact ⟨_, rfl⟩
  obtain ⟨l, hl⟩ := hform
  refine ⟨(if c.capacity ≤ c.items.length then removeTail c else c).entries.length,
    ha, hb, ?_, ?_⟩
  · intro now₂ compute
    have hg := Get_hit_fresh (Set c now key v d) now₂ key compute _ ha hready hexp
    rw [hg]
    have h7 : ((moveToFront (Set c now key v d)
        (if c.capacity ≤ c.items.length then removeTail c else c).entries.length).getEntry
        (if c.capacity ≤ c.items.length then removeTail c else c).entries.length).value = v := by
      have h8 := congrArg (fun q : V × Option Nat × Bool => q.1)
        (moveToFront_content (Set c now key v d)
          (if c.capacity ≤ c.items.length then removeTail c else c).entries.length
          (if c.capacity ≤ c.items.length then removeTail c else c).entries.length)
      exact h8.trans hval
    refine ⟨?_, rfl, ?_⟩
    · show GetOutcome.ok _ = GetOutcome.ok v
      rw [h7]
    · show mapLookup (moveToFront (Set c now key v d) _).items key = _
      rw [moveToFront_items]
      exact ha
  · intro now₃
    have hkeys : ∀ p ∈ (Set c now key v d).items, p.1 = key →
        p.2 = (if c.capacity ≤ c.items.length then removeTail c else c).entries.length := by
      intro p hp hk
      rw [hl] at hp
      exact mapInsert_key_unique l key _ p hp hk
    have hc := cleanup_fold_keeps now₃ key
      (if c.capacity ≤ c.items.length then removeTail c else c).entries.length
      (Set c now key v d).items (Set c now key v d) hkeys ha hexp
    exact ⟨hc.1, hc.2.trans hb⟩

/-- Witness for C10: a Set with the negative duration -7 on a fresh cache. -/
theorem C10_nonpositive_ttl_never_expires_witness :
    (-7 : Int) ≤ 0 ∧
    ∃ eid,
      mapLookup (Set (New Nat Nat 2) 5 1 10 (-7)).items 1 = some eid ∧
      contentOf ((Set (New Nat Nat 2) 5 1 10 (-7)).getEntry eid) = (10, none, true) ∧
      (∀ (now₂ : Nat) (compute : Option (Nat × Option Unit)),
        (Get (Set (New Nat Nat 2) 5 1 10 (-7)) now₂ 1 compute).out = GetOutcome.ok 10 ∧
        (Get (Set (New Nat Nat 2) 5 1 10 (-7)) now₂ 1 compute).invoked = false ∧
        mapLookup (Get (Set (New Nat Nat 2) 5 1 10 (-7)) now₂ 1 compute).st.items 1 =
          some eid) ∧
      (∀ now₃ : Nat,
        mapLookup (Cleanup (Set (New Nat Nat 2) 5 1 10 (-7)) now₃).items 1 = some eid ∧
        contentOf ((Cleanup (Set (New Nat Nat 2) 5 1 10 (-7)) now₃).getEntry eid) =
          (10, none, true)) :=
  ⟨by decide, C10_nonpositive_ttl_never_expires (New Nat Nat 2) 5 1 10 (-7) (by decide)⟩

theorem mapDelete_sublist [DecidableEq K] (l : List (K × Nat)) (k : K) :
    (mapDelete l k).Sublist l := by
  induction l with
  | nil => exact List.Sublist.refl []
  | cons p rest ih =>
    by_cases hp : p.1 = k
    · rw [mapDelete, if_pos hp]
      exact ih.cons p
    · rw [mapDelete, if_neg hp]
      exact ih.cons₂ p

theorem mem_of_mem_mapDelete [DecidableEq K] {l : List (K × Nat)} {k : K} {p : K × Nat}
    (h : p ∈ mapDelete l k) : p ∈ l :=
  (mapDelete_sublist l k).subset h

theorem mem_mapDelete_of_mem_ne [DecidableEq K] {l : List (K × Nat)} {k : K} {p : K × Nat}
    (h : p ∈ l) (hne : p.1 ≠ k) : p ∈ mapDelete l k := by
  induction l with
  | nil => exact absurd h (List.not_mem_nil p)
  | cons q rest ih =>
    rcases List.mem_cons.mp h with rfl | h
    · rw [mapDelete, if_neg hne]
      exact List.mem_cons_self _ _
    · by_cases hq : q.1 = k
      · rw [mapDelete, if_pos hq]
        exact ih h
      · rw [mapDelete, if_neg hq]
        exact List.mem_cons_of_mem q (ih h)

theorem mapDelete_append [DecidableEq K] (l₁ l₂ : List (K × Nat)) (k : K) :
    mapDelete (l₁ ++ l₂) k = mapDelete l₁ k ++ mapDelete l₂ k := by
  induction l₁ with
  | nil => rfl
  | cons p rest ih =>
    by_cases hp : p.1 = k
    · simp [mapDelete, hp, ih]
    · simp [mapDelete, hp, ih]

theorem mapDelete_of_not_mem [DecidableEq K] (l : List (K × Nat)) (k : K)
    (h : k ∉ l.map Prod.fst) : mapDelete l k = l := by
  induction l with
  | nil => rfl
  | cons p rest ih =>
    have h1 : p.1 ≠ k := fun hk => h (by simp [hk.symm])
    have h2 : k ∉ rest.map Prod.fst := fun hk => h (by simp [hk])
    rw [mapDelete, if_neg h1, ih h2]

theorem mapDelete_cons_self [DecidableEq K] (b : K × Nat) (l : List (K × Nat)) :
    mapDelete (b :: l) b.1 = mapDelete l b.1 := by
  rw [mapDelete, if_pos rfl]

theorem eq_of_fst_nodup [DecidableEq K] {l : List (K × Nat)} (hnd : (l.map Prod.fst).Nodup)
    {p q : K × Nat} (hp : p ∈ l) (hq : q ∈ l) (h : p.1 = q.1) : p = q := by
  induction l with
  | nil => exact absurd hp (List.not_mem_nil p)
  | cons b rest ih =>
    rw [List.map_cons, List.nodup_cons] at hnd
    rcases List.mem_cons.mp hp with rfl | hp' <;> rcases List.mem_cons.mp hq with rfl | hq'
    · rfl
    · exact absurd (h ▸ List.mem_map_of_mem Prod.fst hq') hnd.1
    · exact absurd (h ▸ List.mem_map_of_mem Prod.fst hp') hnd.1
    · exact ih hnd.2 hp' hq'

theorem eq_of_snd_nodup [DecidableEq K] {l : List (K × Nat)} (hnd : (l.map Prod.snd).Nodup)
    {p q : K × Nat} (hp : p ∈ l) (hq : q ∈ l) (h : p.2 = q.2) : p = q := by
  induction l with
  | nil => exact absurd hp (List.not_mem_nil p)
  | cons b rest ih =>
    rw [List.map_cons, List.nodup_cons] at hnd
    rcases List.mem_cons.mp hp with rfl | hp' <;> rcases List.mem_cons.mp hq with rfl | hq'
    · rfl
    · exact absurd (h ▸ List.mem_map_of_mem Prod.snd hq') hnd.1
    · exact absurd (h ▸ List.mem_map_of_mem Prod.snd hp') hnd.1
    · exact ih hnd.2 hp' hq'

theorem headOr_none (ys : List Nat) : headOr ys none = ys.head? := by
  cases ys <;> rfl

theorem headOr_append (xs ys : List Nat) (t : Option Nat) :
    headOr (xs ++ ys) t = headOr xs (headOr ys t) := by
  cases xs <;> rfl

theorem lastOr_cons (i : Nat) (xs : List Nat) (p : Option Nat) :
    lastOr (i :: xs) p = lastOr xs (some i) := rfl

theorem lastOr_concat (xs : List Nat) (p : Nat) (q : Option Nat) :
    lastOr (xs ++ [p]) q = some p := by
  induction xs generalizing q with
  | nil => rfl
  | cons i xs ih => exact ih (some i)

theorem chainNext_append [Inhabited V] (c : Cache K V) (xs ys : List Nat) (t : Option Nat) :
    chainNext c (xs ++ ys) t = (chainNext c xs (headOr ys t) && chainNext c ys t) := by
  induction xs with
  | nil => simp [chainNext]
  | cons i xs ih =>
    rw [List.cons_append, chainNext, chainNext, headOr_append, ih, Bool.and_assoc]

theorem chainPrev_append [Inhabited V] (c : Cache K V) (xs ys : List Nat) (p : Option Nat) :
    chainPrev c p (xs ++ ys) = (chainPrev c p xs && chainPrev c (lastOr xs p) ys) := by
  induction xs generalizing p with
  | nil => simp [chainPrev, lastOr]
  | cons i xs ih =>
    rw [List.cons_append, chainPrev, chainPrev, ih (some i), lastOr_cons, Bool.and_assoc]

theorem chainNext_congr [Inhabited V] (c c' : Cache K V) (ns : List Nat) (t : Option Nat)
    (h : ∀ i ∈ ns, (c'.getEntry i).next = (c.getEntry i).next) :
    chainNext c' ns t = chainNext c ns t := by
  induction ns with
  | nil => rfl
  | cons i ns ih =>
    rw [chainNext, chainNext, h i (List.mem_cons_self i ns),
      ih (fun j hj => h j (List.mem_cons_of_mem i hj))]

theorem chainPrev_congr [Inhabited V] (c c' : Cache K V) (ns : List Nat) (p : Option Nat)
    (h : ∀ i ∈ ns, (c'.getEntry i).prev = (c.getEntry i).prev) :
    chainPrev c' p ns = chainPrev c p ns := by
  induction ns generalizing p with
  | nil => rfl
  | cons i ns ih =>
    rw [chainPrev, chainPrev, h i (List.mem_cons_self i ns),
      ih (some i) (fun j hj => h j (List.mem_cons_of_mem i hj))]

theorem head_setEntry (c : Cache K V) (j : Nat) (e : CacheEntry V) :
    (c.setEntry j e).head = c.head := rfl

theorem tail_setEntry (c : Cache K V) (j : Nat) (e : CacheEntry V) :
    (c.setEntry j e).tail = c.tail := rfl

theorem head_setHead (c : Cache K V) (h : Option Nat) : (c.setHead h).head = h := rfl

theorem tail_setHead (c : Cache K V) (h : Option Nat) : (c.setHead h).tail = c.tail := rfl

theorem head_setTail (c : Cache K V) (t : Option Nat) : (c.setTail t).head = c.head := rfl

theorem tail_setTail (c : Cache K V) (t : Option Nat) : (c.setTail t).tail = t := rfl

theorem head_setItems (c : Cache K V) (l : List (K × Nat)) : (c.setItems l).head = c.head := rfl

theorem tail_setItems (c : Cache K V) (l : List (K × Nat)) : (c.setItems l).tail = c.tail := rfl

theorem entries_length_setEntry (c : Cache K V) (j : Nat) (e : CacheEntry V) :
    (c.setEntry j e).entries.length = c.entries.length := by
  show (c.entries.set j e).length = c.entries.length
  exact List.length_set c.entries j e

theorem entries_length_setHead (c : Cache K V) (h : Option Nat) :
    (c.setHead h).entries.length = c.entries.length := rfl

theorem entries_length_setTail (c : Cache K V) (t : Option Nat) :
    (c.setTail t).entries.length = c.entries.length := rfl

theorem entries_length_setItems (c : Cache K V) (l : List (K × Nat)) :
    (c.setItems l).entries.length = c.entries.length := rfl

theorem fixPrevNext_entries_length [Inhabited V] (c : Cache K V) (e : Nat) (v : Option Nat) :
    (fixPrevNext c e v).entries.length = c.entries.length := by
  unfold fixPrevNext
  cases (c.getEntry e).prev with
  | none => rfl
  | some p => exact entries_length_setEntry c p _

theorem fixNextPrev_entries_length [Inhabited V] (c : Cache K V) (e : Nat) (v : Option Nat) :
    (fixNextPrev c e v).entries.length = c.entries.length := by
  unfold fixNextPrev
  cases (c.getEntry e).next with
  | none => rfl
  | some n => exact entries_length_setEntry c n _

theorem head_fixPrevNext [Inhabited V] (c : Cache K V) (e : Nat) (v : Option Nat) :
    (fixPrevNext c e v).head = c.head := by
  unfold fixPrevNext
  cases (c.getEntry e).prev <;> rfl

theorem tail_fixPrevNext [Inhabited V] (c : Cache K V) (e : Nat) (v : Option Nat) :
    (fixPrevNext c e v).tail = c.tail := by
  unfold fixPrevNext
  cases (c.getEntry e).prev <;> rfl

theorem head_fixNextPrev [Inhabited V] (c : Cache K V) (e : Nat) (v : Option Nat) :
    (fixNextPrev c e v).head = c.head := by
  unfold fixNextPrev
  cases (c.getEntry e).next <;> rfl

theorem tail_fixNextPrev [Inhabited V] (c : Cache K V) (e : Nat) (v : Option Nat) :
    (fixNextPrev c e v).tail = c.tail := by
  unfold fixNextPrev
  cases (c.getEntry e).next <;> rfl

theorem unlinkEntry_entries_length [Inhabited V] (c : Cache K V) (e : Nat) :
    (unlinkEntry c e).entries.length = c.entries.length := by
  simp only [unlinkEntry]
  split <;> split <;>
    simp [entries_length_setHead, entries_length_setTail,
      fixPrevNext_entries_length, fixNextPrev_entries_length]

theorem cleanupStep_content [DecidableEq K] [Inhabited V] (now : Nat) (c : Cache K V)
    (kv : K × Nat) (i : Nat) :
    contentOf ((cleanupStep now c kv).getEntry i) = contentOf (c.getEntry i) := by
  unfold cleanupStep
  split
  · rw [getEntry_setItems]
    exact unlinkEntry_content c kv.2 i
  · rfl

theorem cleanupStep_entries_length [DecidableEq K] [Inhabited V] (now : Nat) (c : Cache K V)
    (kv : K × Nat) :
    (cleanupStep now c kv).entries.length = c.entries.length := by
  unfold cleanupStep
  split
  · rw [entries_length_setItems]
    exact unlinkEntry_entries_length c kv.2
  · rfl

theorem head?_append_of_ne_nil {α : Type _} (l₁ l₂ : List α) (h : l₁ ≠ []) :
    (l₁ ++ l₂).head? = l₁.head? := by
  cases l₁ with
  | nil => exact absurd rfl h
  | cons a l => rfl

theorem getLast?_append_of_ne_nil {α : Type _} (l₁ : List α) :
    ∀ l₂ : List α, l₂ ≠ [] → (l₁ ++ l₂).getLast? = l₂.getLast? := by
  induction l₁ with
  | nil => intro l₂ _; rfl
  | cons a l ih =>
    intro l₂ h2
    rw [List.cons_append]
    have hne : l ++ l₂ ≠ [] := by
      intro hl
      rcases List.append_eq_nil.mp hl with ⟨_, h⟩
      exact h2 h
    calc (a :: (l ++ l₂)).getLast? = (l ++ l₂).getLast? := by
          cases hll : l ++ l₂ with
          | nil => exact absurd hll hne
          | cons b lb => rw [List.getLast?_cons_cons]
      _ = l₂.getLast? := ih l₂ h2

theorem exists_getLast?_cons (x : Nat) (l : List Nat) :
    ∃ z, (x :: l).getLast? = some z ∧ z ∈ x :: l := by
  induction l generalizing x with
  | nil => exact ⟨x, rfl, List.mem_cons_self x []⟩
  | cons y l ih =>
    obtain ⟨z, hz, hzm⟩ := ih y
    exact ⟨z, by rw [List.getLast?_cons_cons]; exact hz, List.mem_cons_of_mem x hzm⟩

theorem exists_head?_of_ne_nil (l : List Nat) (h : l ≠ []) :
    ∃ x, l.head? = some x ∧ x ∈ l := by
  cases l with
  | nil => exact absurd rfl h
  | cons a t => exact ⟨a, rfl, List.mem_cons_self a t⟩

theorem unlink_geom [Inhabited V] {K : Type} (c : Cache K V) (xs ys : List Nat) (e : Nat)
    (h : Geom c (xs ++ e :: ys)) :
    Geom (unlinkEntry c e) (xs ++ ys) ∧
    (unlinkEntry c e).items = c.items ∧
    (unlinkEntry c e).entries.length = c.entries.length := by
  obtain ⟨hnd, hbound, hhead, htail, hcn, hcp⟩ := h
  have hsub : (xs ++ ys).Sublist (xs ++ e :: ys) :=
    List.Sublist.append_left (List.sublist_cons_self e ys) xs
  have hnd' : (xs ++ ys).Nodup := hnd.sublist hsub
  have hxsplit := List.nodup_append.mp hnd
  have hxnd : xs.Nodup := hxsplit.1
  have heynd := hxsplit.2.1
  have hdisj := hxsplit.2.2
  have hey : e ∉ ys := (List.nodup_cons.mp heynd).1
  have hysnd : ys.Nodup := (List.nodup_cons.mp heynd).2
  have hex : e ∉ xs := fun hm => hdisj hm (List.mem_cons_self e ys)
  have hcn2 := hcn
  rw [chainNext_append] at hcn2
  obtain ⟨hcnxs, hcnys0⟩ := (Bool.and_eq_true _ _).mp hcn2
  rw [chainNext] at hcnys0
  obtain ⟨hnexte', hcnys⟩ := (Bool.and_eq_true _ _).mp hcnys0
  have hnexte : (c.getEntry e).next = headOr ys none := of_decide_eq_true hnexte'
  have hcp2 := hcp
  rw [chainPrev_append] at hcp2
  obtain ⟨hcpxs, hcpys0⟩ := (Bool.and_eq_true _ _).mp hcp2
  rw [chainPrev] at hcpys0
  obtain ⟨hpreve', hcpys⟩ := (Bool.and_eq_true _ _).mp hcpys0
  have hpreve : (c.getEntry e).prev = lastOr xs none := of_decide_eq_true hpreve'
  rcases List.eq_nil_or_concat xs with rfl | ⟨xs₀, p, hxs⟩
  · -- xs = []
    have hpreve0 : (c.getEntry e).prev = none := hpreve
    cases ys with
    | nil =>
      have hhead0 : c.head = some e := hhead
      have htail0 : c.tail = some e := htail
      have hnexte0 : (c.getEntry e).next = none := hnexte
      have hu : unlinkEntry c e = (c.setHead none).setTail none := by
        simp only [unlinkEntry]
        rw [show fixPrevNext c e (c.getEntry e).next = c from by
          unfold fixPrevNext; rw [hpreve0]]
        rw [show fixNextPrev c e ((c.getEntry e).prev) = c from by
          unfold fixNextPrev; rw [hnexte0]]
        rw [if_pos hhead0, hnexte0, tail_setHead, if_pos htail0, getEntry_setHead, hpreve0]
      refine ⟨⟨List.nodup_nil, ?_, ?_, ?_, rfl, rfl⟩, ?_, ?_⟩
      · intro i hi; exact absurd hi (List.not_mem_nil i)
      · rw [hu, head_setTail, head_setHead]; rfl
      · rw [hu, tail_setTail]; rfl
      · rw [hu]; rfl
      · rw [hu]; rfl
    | cons n ys' =>
      have hhead0 : c.head = some e := hhead
      have hnexte0 : (c.getEntry e).next = some n := hnexte
      have htail0 : c.tail = (n :: ys').getLast? := htail.trans List.getLast?_cons_cons
      obtain ⟨z, hz, hzm⟩ := exists_getLast?_cons n ys'
      have htailz : c.tail = some z := htail0.trans hz
      have hzne : ¬ (some z = some e) := fun hh => hey (Option.some.inj hh ▸ hzm)
      have hen : e ≠ n := fun hh => hey (hh ▸ List.mem_cons_self n ys')
      have hnlt : n < c.entries.length := hbound n (by simp)
      rw [chainPrev] at hcpys
      obtain ⟨hprevn', hcpys'⟩ := (Bool.and_eq_true _ _).mp hcpys
      have hu : unlinkEntry c e =
          (c.setEntry n { c.getEntry n with prev := none }).setHead (some n) := by
        simp only [unlinkEntry]
        rw [show fixPrevNext c e (c.getEntry e).next = c from by
          unfold fixPrevNext; rw [hpreve0]]
        rw [show fixNextPrev c e ((c.getEntry e).prev) =
            c.setEntry n { c.getEntry n with prev := (c.getEntry e).prev } from by
          unfold fixNextPrev; rw [hnexte0]]
        rw [hpreve0]
        rw [head_setEntry, if_pos hhead0, getEntry_setEntry_ne c n e _ hen, hnexte0]
        rw [tail_setHead, tail_setEntry, htailz, if_neg hzne]
      simp only [List.nil_append]
      refine ⟨⟨hysnd, ?_, ?_, ?_, ?_, ?_⟩, ?_, ?_⟩
      · intro i hi
        rw [hu, entries_length_setHead, entries_length_setEntry]
        exact hbound i (List.mem_cons_of_mem e hi)
      · rw [hu, head_setHead]; rfl
      · rw [hu, tail_setHead, tail_setEntry]; exact htail0
      · rw [hu]
        rw [chainNext_congr c _ (n :: ys') none ?hnx]
        · exact hcnys
        case hnx =>
          intro i hi
          rw [getEntry_setHead]
          by_cases hin : i = n
          · subst hin
            rw [getEntry_setEntry_self c i _ hnlt]
          · rw [getEntry_setEntry_ne c n i _ hin]
      · rw [hu, chainPrev]
        apply (Bool.and_eq_true _ _).mpr
        constructor
        · apply decide_eq_true
          rw [getEntry_setHead, getEntry_setEntry_self c n _ hnlt]
        · rw [chainPrev_congr c _ ys' (some n) ?hpv]
          · exact hcpys'
          case hpv =>
            intro i hi
            rw [getEntry_setHead, getEntry_setEntry_ne c n i _
              (fun hin => (List.nodup_cons.mp hysnd).1 (hin ▸ hi))]
      · rw [hu]; rfl
      · rw [hu, entries_length_setHead, entries_length_setEntry]
  · -- xs = xs₀ ++ [p]
    rw [List.concat_eq_append] at hxs
    subst hxs
    have hpmem : p ∈ xs₀ ++ [p] := List.mem_append_right xs₀ (List.mem_singleton.mpr rfl)
    have hpe : e ≠ p := fun hh => hex (hh ▸ hpmem)
    have hplt : p < c.entries.length := hbound p (List.mem_append_left _ hpmem)
    have hpreve0 : (c.getEntry e).prev = some p := hpreve.trans (lastOr_concat xs₀ p none)
    have hxne : xs₀ ++ [p] ≠ [] := by simp
    obtain ⟨x₀, hx₀, hx₀m⟩ := exists_head?_of_ne_nil (xs₀ ++ [p]) hxne
    have hheadx : c.head = some x₀ := hhead.trans (by
      rw [head?_append_of_ne_nil _ _ hxne, hx₀])
    have hx₀e : ¬ (some x₀ = some e) := fun hh => hex (Option.some.inj hh ▸ hx₀m)
    have hcnxs' := hcnxs
    rw [chainNext_append] at hcnxs'
    obtain ⟨hcnxs₀, hcnp0⟩ := (Bool.and_eq_true _ _).mp hcnxs'
    rw [chainNext] at hcnp0
    obtain ⟨hnp', _⟩ := (Bool.and_eq_true _ _).mp hcnp0
    have hnextp : (c.getEntry p).next = some e := of_decide_eq_true hnp'
    have hpnx : p ∉ xs₀ := by
      intro hmem
      rcases List.nodup_append.mp hxnd with ⟨_, _, hdisj2⟩
      exact hdisj2 hmem (List.mem_singleton.mpr rfl)
    cases ys with
    | nil =>
      have hnexte0 : (c.getEntry e).next = none := hnexte
      have htail0 : c.tail = some e := htail.trans (by
        rw [getLast?_append_of_ne_nil (xs₀ ++ [p]) (e :: []) (by simp)]; rfl)
      have hu : ∃ pay1 : CacheEntry V,
          pay1.prev = (c.getEntry p).prev ∧ pay1.next = none ∧
          unlinkEntry c e = (c.setEntry p pay1).setTail (some p) := by
        refine ⟨{ c.getEntry p with next := none }, rfl, rfl, ?_⟩
        simp only [unlinkEntry]
        rw [hnexte0]
        rw [show fixPrevNext c e (none : Option Nat) =
            c.setEntry p { c.getEntry p with next := none } from by
          unfold fixPrevNext; rw [hpreve0]]
        rw [show fixNextPrev (c.setEntry p { c.getEntry p with next := none }) e
            (((c.setEntry p { c.getEntry p with next := none }).getEntry e).prev) =
            c.setEntry p { c.getEntry p with next := none } from by
          unfold fixNextPrev; rw [getEntry_setEntry_ne c p e _ hpe, hnexte0]]
        rw [head_setEntry, hheadx, if_neg hx₀e]
        rw [tail_setEntry, htail0, if_pos rfl]
        rw [getEntry_setEntry_ne c p e _ hpe, hpreve0]
      obtain ⟨pay1, hp1p, hp1n, hu⟩ := hu
      simp only [List.append_nil]
      refine ⟨⟨hxnd, ?_, ?_, ?_, ?_, ?_⟩, ?_, ?_⟩
      · intro i hi
        rw [hu, entries_length_setTail, entries_length_setEntry]
        exact hbound i (List.mem_append_left _ hi)
      · rw [hu, head_setTail, head_setEntry, hheadx]
        exact hx₀.symm
      · rw [hu, tail_setTail]
        exact (List.getLast?_concat _).symm
      · rw [hu, chainNext_append]
        apply (Bool.and_eq_true _ _).mpr
        constructor
        · rw [chainNext_congr c _ xs₀ _ ?hnb]
          · exact hcnxs₀
          case hnb =>
            intro i hi
            rw [getEntry_setTail, getEntry_setEntry_ne c p i _ (fun hip => hpnx (hip ▸ hi))]
        · rw [chainNext]
          apply (Bool.and_eq_true _ _).mpr
          refine ⟨decide_eq_true ?_, rfl⟩
          rw [getEntry_setTail, getEntry_setEntry_self c p _ hplt]
          exact hp1n
      · rw [hu]
        rw [chainPrev_congr c _ (xs₀ ++ [p]) none ?hpb]
        · exact hcpxs
        case hpb =>
          intro i hi
          rw [getEntry_setTail]
          by_cases hip : i = p
          · subst hip
            rw [getEntry_setEntry_self c i _ hplt, hp1p]
          · rw [getEntry_setEntry_ne c p i _ hip]
      · rw [hu]; rfl
      · rw [hu, entries_length_setTail, entries_length_setEntry]
    | cons n ys' =>
      have hnexte0 : (c.getEntry e).next = some n := hnexte
      have hen : e ≠ n := fun hh => hey (hh ▸ List.mem_cons_self n ys')
      have hnys : n ∈ e :: n :: ys' := List.mem_cons_of_mem e (List.mem_cons_self n ys')
      have hpn : p ≠ n := fun hh => hdisj (hh ▸ hpmem) hnys
      have hnp : n ≠ p := fun hh => hpn hh.symm
      have hnlt : n < c.entries.length := hbound n (List.mem_append_right _ hnys)
      have htail0 : c.tail = (n :: ys').getLast? := htail.trans (by
        rw [getLast?_append_of_ne_nil (xs₀ ++ [p]) (e :: n :: ys') (by simp)]
        exact List.getLast?_cons_cons)
      obtain ⟨z, hz, hzm⟩ := exists_getLast?_cons n ys'
      have htailz : c.tail = some z := htail0.trans hz
      have hzne : ¬ (some z = some e) := fun hh => hey (Option.some.inj hh ▸ hzm)
      rw [chainPrev] at hcpys
      obtain ⟨hprevn', hcpys'⟩ := (Bool.and_eq_true _ _).mp hcpys
      rw [chainNext] at hcnys
      obtain ⟨hnextn', hcnys'⟩ := (Bool.and_eq_true _ _).mp hcnys
      have hnextn : (c.getEntry n).next = headOr ys' none := of_decide_eq_true hnextn'
      have hu : ∃ pay1 pay2 : CacheEntry V,
          pay1.prev = (c.getEntry p).prev ∧ pay1.next = some n ∧
          pay2.prev = some p ∧ pay2.next = (c.getEntry n).next ∧
          unlinkEntry c e = (c.setEntry p pay1).setEntry n pay2 := by
        refine ⟨{ c.getEntry p with next := some n },
          { (c.setEntry p { c.getEntry p with next := some n }).getEntry n with
            prev := some p }, rfl, rfl, rfl, ?_, ?_⟩
        · show ((c.setEntry p { c.getEntry p with next := some n }).getEntry n).next =
            (c.getEntry n).next
          rw [getEntry_setEntry_ne c p n _ hnp]
        · simp only [unlinkEntry]
          rw [hnexte0]
          rw [show fixPrevNext c e (some n) =
              c.setEntry p { c.getEntry p with next := some n } from by
            unfold fixPrevNext; rw [hpreve0]]
          rw [show fixNextPrev (c.setEntry p { c.getEntry p with next := some n }) e
              (((c.setEntry p { c.getEntry p with next := some n }).getEntry e).prev) =
              (c.setEntry p { c.getEntry p with next := some n }).setEntry n
                { (c.setEntry p { c.getEntry p with next := some n }).getEntry n with
                  prev := ((c.setEntry p { c.getEntry p with next := some n }).getEntry e).prev }
              from by
            unfold fixNextPrev; rw [getEntry_setEntry_ne c p e _ hpe, hnexte0]]
          rw [getEntry_setEntry_ne c p e _ hpe, hpreve0]
          rw [head_setEntry, head_setEntry, hheadx, if_neg hx₀e]
          rw [tail_setEntry, tail_setEntry, htailz, if_neg hzne]
      obtain ⟨pay1, pay2, hp1p, hp1n, hp2p, hp2n, hu⟩ := hu
      have hnlt1 : n < (c.setEntry p pay1).entries.length := by
        rw [entries_length_setEntry]; exact hnlt
      refine ⟨⟨hnd', ?_, ?_, ?_, ?_, ?_⟩, ?_, ?_⟩
      · intro i hi
        rw [hu, entries_length_setEntry, entries_length_setEntry]
        rcases List.mem_append.mp hi with h | h
        · exact hbound i (List.mem_append_left _ h)
        · exact hbound i (List.mem_append_right _ (List.mem_cons_of_mem e h))
      · rw [hu, head_setEntry, head_setEntry, hheadx]
        rw [head?_append_of_ne_nil _ _ hxne, hx₀]
      · rw [hu, tail_setEntry, tail_setEntry, htail0]
        rw [getLast?_append_of_ne_nil _ (n :: ys') (by simp)]
      · rw [hu, chainNext_append]
        apply (Bool.and_eq_true _ _).mpr
        constructor
        · rw [chainNext_append]
          apply (Bool.and_eq_true _ _).mpr
          constructor
          · rw [chainNext_congr c _ xs₀ _ ?hnd1]
            · exact hcnxs₀
            case hnd1 =>
              intro i hi
              have hip : i ≠ p := fun hh => hpnx (hh ▸ hi)
              have hin : i ≠ n := fun hh =>
                hdisj (List.mem_append_left _ (hh ▸ hi)) hnys
              rw [getEntry_setEntry_ne _ n i _ hin, getEntry_setEntry_ne c p i _ hip]
          · rw [chainNext]
            apply (Bool.and_eq_true _ _).mpr
            refine ⟨decide_eq_true ?_, rfl⟩
            rw [getEntry_setEntry_ne _ n p _ hpn, getEntry_setEntry_self c p _ hplt]
            exact hp1n
        · rw [chainNext]
          apply (Bool.and_eq_true _ _).mpr
          constructor
          · apply decide_eq_true
            rw [getEntry_setEntry_self _ n _ hnlt1, hp2n]
            exact hnextn
          · rw [chainNext_congr c _ ys' none ?hnd3]
            · exact hcnys'
            case hnd3 =>
              intro i hi
              have hin : i ≠ n := fun hh => (List.nodup_cons.mp hysnd).1 (hh ▸ hi)
              have hiys : i ∈ e :: n :: ys' :=
                List.mem_cons_of_mem e (List.mem_cons_of_mem n hi)
              have hip : i ≠ p := fun hh => hdisj hpmem (hh ▸ hiys)
              rw [getEntry_setEntry_ne _ n i _ hin, getEntry_setEntry_ne c p i _ hip]
      · rw [hu, chainPrev_append]
        apply (Bool.and_eq_true _ _).mpr
        constructor
        · rw [chainPrev_congr c _ (xs₀ ++ [p]) none ?hpd1]
          · exact hcpxs
          case hpd1 =>
            intro i hi
            by_cases hip : i = p
            · rw [hip]
              rw [getEntry_setEntry_ne _ n p _ hpn,
                getEntry_setEntry_self c p _ hplt, hp1p]
            · have hin : i ≠ n := fun hh =>
                hdisj (hh ▸ hi) hnys
              rw [getEntry_setEntry_ne _ n i _ hin, getEntry_setEntry_ne c p i _ hip]
        · rw [chainPrev]
          apply (Bool.and_eq_true _ _).mpr
          constructor
          · apply decide_eq_true
            rw [getEntry_setEntry_self _ n _ hnlt1, hp2p, lastOr_concat]
          · rw [chainPrev_congr c _ ys' (some n) ?hpd2]
            · exact hcpys'
            case hpd2 =>
              intro i hi
              have hin : i ≠ n := fun hh => (List.nodup_cons.mp hysnd).1 (hh ▸ hi)
              have hiys : i ∈ e :: n :: ys' :=
                List.mem_cons_of_mem e (List.mem_cons_of_mem n hi)
              have hip : i ≠ p := fun hh => hdisj hpmem (hh ▸ hiys)
              rw [getEntry_setEntry_ne _ n i _ hin, getEntry_setEntry_ne c p i _ hip]
      · rw [hu]; rfl
      · rw [hu, entries_length_setEntry, entries_length_setEntry]

theorem Geom_setItems [Inhabited V] {K : Type} (c : Cache K V) (l : List (K × Nat))
    (ns : List Nat) (h : Geom c ns) : Geom (c.setItems l) ns := by
  obtain ⟨h1, h2, h3, h4, h5, h6⟩ := h
  refine ⟨h1, ?_, h3, h4, ?_, ?_⟩
  · intro i hi
    rw [entries_length_setItems]
    exact h2 i hi
  · rw [chainNext_congr c (c.setItems l) ns none (fun i _ => rfl)]
    exact h5
  · rw [chainPrev_congr c (c.setItems l) ns none (fun i _ => rfl)]
    exact h6

theorem cleanup_fold_linked [DecidableEq K] [Inhabited V] (now : Nat) :
    ∀ (bs done : List (K × Nat)) (c : Cache K V) (ns : List Nat),
      Linked c ns →
      c.items = done ++ bs →
      (∀ p ∈ done, isExpiredB ((c.getEntry p.2).expiresAt) now = false) →
      (bs.foldl (cleanupStep now) c).items =
        done ++ bs.filter (fun p => !(isExpiredB ((c.getEntry p.2).expiresAt) now)) ∧
      Linked (bs.foldl (cleanupStep now) c)
        (ns.filter (fun i =>
          !(decide (i ∈ bs.map Prod.snd) && isExpiredB ((c.getEntry i).expiresAt) now))) ∧
      (∀ i, contentOf ((bs.foldl (cleanupStep now) c).getEntry i) =
        contentOf (c.getEntry i)) ∧
      (bs.foldl (cleanupStep now) c).entries.length = c.entries.length := by
  intro bs
  induction bs with
  | nil =>
    intro done c ns hlink hitems _
    refine ⟨?_, ?_, fun i => rfl, rfl⟩
    · simpa using hitems
    · have hns : (ns.filter (fun i =>
          !(decide (i ∈ ([] : List (K × Nat)).map Prod.snd) &&
            isExpiredB ((c.getEntry i).expiresAt) now))) = ns := by
        simp
      rw [hns]
      exact hlink
  | cons b bs ih =>
    intro done c ns hlink hitems hdone
    rw [List.foldl_cons]
    by_cases he : isExpiredB ((c.getEntry b.2).expiresAt) now = true
    · -- this binding is expired and removed
      have hstepc : cleanupStep now c b =
          (unlinkEntry c b.2).setItems (mapDelete (unlinkEntry c b.2).items b.1) := by
        unfold cleanupStep
        rw [if_pos he]
      have hbmem : b ∈ c.items := by
        rw [hitems]
        exact List.mem_append_right done (List.mem_cons_self b bs)
      obtain ⟨hgeom, hknd, hsnd, hfwd, hbwd⟩ := hlink
      have hb2 : b.2 ∈ ns := hbwd b.2 (List.mem_map_of_mem Prod.snd hbmem)
      obtain ⟨xs, ys, hns⟩ := List.append_of_mem hb2
      subst hns
      have hnsnd : (xs ++ b.2 :: ys).Nodup := hgeom.1
      have hxsplit := List.nodup_append.mp hnsnd
      have hb2xs : b.2 ∉ xs := fun hm => hxsplit.2.2 hm (List.mem_cons_self b.2 ys)
      have hb2ys : b.2 ∉ ys := (List.nodup_cons.mp hxsplit.2.1).1
      obtain ⟨hgeom2, hitems2, hlen2⟩ := unlink_geom c xs ys b.2 hgeom
      have hc2items : (cleanupStep now c b).items = mapDelete c.items b.1 := by
        rw [hstepc, items_setItems, unlinkEntry_items]
      have hc2get : ∀ i, contentOf ((cleanupStep now c b).getEntry i) =
          contentOf (c.getEntry i) := cleanupStep_content now c b
      have hc2len : (cleanupStep now c b).entries.length = c.entries.length :=
        cleanupStep_entries_length now c b
      have hexp_eq : ∀ i, ((cleanupStep now c b).getEntry i).expiresAt =
          (c.getEntry i).expiresAt := fun i => expiresAt_of_contentOf (hc2get i)
      have hc2geom : Geom (cleanupStep now c b) (xs ++ ys) := by
        rw [hstepc]
        exact Geom_setItems _ _ _ hgeom2
      -- keys of the current map, split around b
      have hknd2 : ((done ++ b :: bs).map Prod.fst).Nodup := by rw [← hitems]; exact hknd
      rw [List.map_append] at hknd2
      have hksplit := List.nodup_append.mp hknd2
      have hb1done : b.1 ∉ done.map Prod.fst := fun hm =>
        hksplit.2.2 hm (by rw [List.map_cons]; exact List.mem_cons_self b.1 _)
      have hb1bs : b.1 ∉ bs.map Prod.fst := by
        have := hksplit.2.1
        rw [List.map_cons] at this
        exact (List.nodup_cons.mp this).1
      have hc2done : (cleanupStep now c b).items = done ++ bs := by
        rw [hc2items, hitems, mapDelete_append, mapDelete_of_not_mem done b.1 hb1done,
          mapDelete_cons_self, mapDelete_of_not_mem bs b.1 hb1bs]
      -- Linked for the shrunk state
      have hlink2 : Linked (cleanupStep now c b) (xs ++ ys) := by
        refine ⟨hc2geom, ?_, ?_, ?_, ?_⟩
        · rw [hc2items]
          exact hknd.sublist ((mapDelete_sublist c.items b.1).map Prod.fst)
        · rw [hc2items]
          exact hsnd.sublist ((mapDelete_sublist c.items b.1).map Prod.snd)
        · intro i hi
          have hine : i ≠ b.2 := by
            rcases List.mem_append.mp hi with h | h
            · exact fun hh => hb2xs (hh ▸ h)
            · exact fun hh => hb2ys (hh ▸ h)
          have hins : i ∈ xs ++ b.2 :: ys := by
            rcases List.mem_append.mp hi with h | h
            · exact List.mem_append_left _ h
            · exact List.mem_append_right _ (List.mem_cons_of_mem b.2 h)
          obtain ⟨q, hq, hq2⟩ := List.mem_map.mp (hfwd i hins)
          have hq1 : q.1 ≠ b.1 := by
            intro hh
            have : q = b := eq_of_fst_nodup hknd hq hbmem hh
            exact hine (by rw [← hq2, this])
          rw [hc2items]
          exact List.mem_map.mpr ⟨q, mem_mapDelete_of_mem_ne hq hq1, hq2⟩
        · intro i hi
          rw [hc2items] at hi
          obtain ⟨q, hq, hq2⟩ := List.mem_map.mp hi
          have hqc : q ∈ c.items := mem_of_mem_mapDelete hq
          have hq1 : q.1 ≠ b.1 := mem_mapDelete_ne c.items b.1 q hq
          have hine : i ≠ b.2 := by
            intro hh
            have : q = b := eq_of_snd_nodup hsnd hqc hbmem (by rw [hq2, hh])
            exact hq1 (by rw [this])
          have := hbwd i (hq2 ▸ List.mem_map_of_mem Prod.snd hqc)
          rcases List.mem_append.mp this with h | h
          · exact List.mem_append_left _ h
          · rcases List.mem_cons.mp h with h | h
            · exact absurd h hine
            · exact List.mem_append_right _ h
      have hdone2 : ∀ p ∈ done, isExpiredB
          (((cleanupStep now c b).getEntry p.2).expiresAt) now = false := by
        intro p hp
        rw [hexp_eq p.2]
        exact hdone p hp
      obtain ⟨ih1, ih2, ih3, ih4⟩ := ih done (cleanupStep now c b) (xs ++ ys)
        hlink2 hc2done hdone2
      refine ⟨?_, ?_, ?_, ?_⟩
      · rw [ih1]
        have hfb : (List.filter (fun p =>
            !(isExpiredB ((c.getEntry p.2).expiresAt) now)) (b :: bs)) =
            List.filter (fun p => !(isExpiredB ((c.getEntry p.2).expiresAt) now)) bs := by
          rw [List.filter_cons]
          simp [he]
        rw [hfb]
        congr 1
        apply List.filter_congr
        intro p _
        rw [hexp_eq p.2]
      · have hlst : ((xs ++ b.2 :: ys).filter (fun i =>
            !(decide (i ∈ (b :: bs).map Prod.snd) &&
              isExpiredB ((c.getEntry i).expiresAt) now))) =
            ((xs ++ ys).filter (fun i =>
              !(decide (i ∈ bs.map Prod.snd) &&
                isExpiredB (((cleanupStep now c b).getEntry i).expiresAt) now))) := by
          rw [List.filter_append, List.filter_append, List.filter_cons]
          have hb2false : (!(decide (b.2 ∈ (b :: bs).map Prod.snd) &&
              isExpiredB ((c.getEntry b.2).expiresAt) now)) = false := by
            simp [he, List.map_cons]
          rw [hb2false]
          simp only [Bool.false_eq_true, if_false]
          congr 1
          · apply List.filter_congr
            intro i hi
            have hine : i ≠ b.2 := fun hh => hb2xs (hh ▸ hi)
            rw [hexp_eq i]
            have hbeq : (i == b.2) = false := beq_eq_false_iff_ne.mpr hine
            simp [List.map_cons, List.mem_cons, hine, hbeq]
          · apply List.filter_congr
            intro i hi
            have hine : i ≠ b.2 := fun hh => hb2ys (hh ▸ hi)
            rw [hexp_eq i]
            have hbeq : (i == b.2) = false := beq_eq_false_iff_ne.mpr hine
            simp [List.map_cons, List.mem_cons, hine, hbeq]
        rw [hlst]
        exact ih2
      · intro i
        exact (ih3 i).trans (hc2get i)
      · exact ih4.trans hc2len
    · -- this binding survives
      have he2 : isExpiredB ((c.getEntry b.2).expiresAt) now = false := by
        revert he
        cases isExpiredB ((c.getEntry b.2).expiresAt) now <;> simp
      have hstepc : cleanupStep now c b = c := by
        unfold cleanupStep
        rw [if_neg he]
      rw [hstepc]
      obtain ⟨ih1, ih2, ih3, ih4⟩ := ih (done ++ [b]) c ns hlink
        (by rw [hitems, List.append_assoc]; rfl)
        (by
          intro p hp
          rcases List.mem_append.mp hp with h | h
          · exact hdone p h
          · rw [List.mem_singleton.mp h]
            exact he2)
      refine ⟨?_, ?_, ih3, ih4⟩
      · rw [ih1, List.filter_cons]
        simp only [he2, Bool.not_false, if_true]
        rw [List.append_assoc]
        rfl
      · have hlst : (ns.filter (fun i =>
            !(decide (i ∈ (b :: bs).map Prod.snd) &&
              isExpiredB ((c.getEntry i).expiresAt) now))) =
            (ns.filter (fun i =>
              !(decide (i ∈ bs.map Prod.snd) &&
                isExpiredB ((c.getEntry i).expiresAt) now))) := by
          apply List.filter_congr
          intro i _
          by_cases hib : i = b.2
          · subst hib
            simp [he2]
          · have hbeq : (i == b.2) = false := beq_eq_false_iff_ne.mpr hib
            simp [List.map_cons, List.mem_cons, hib, hbeq]
        rw [hlst]
        exact ih2

/-- Claim C9: on a cache satisfying the list-equals-index invariant, Cleanup
removes, from both the index and the recency list, exactly the entries whose
expiresAt is set and strictly in the past relative to the single timestamp of
the scan: the index keeps exactly the unexpired bindings in order, the
recency list is the original node list filtered to the survivors (so the
survivors' relative positions are untouched, and the invariant still holds),
and every entry's content (value, expiry, readiness) is unchanged. -/
theorem C9_cleanup_exact [DecidableEq K] [Inhabited V] (c : Cache K V) (ns : List Nat)
    (now : Nat) (h : Linked c ns) :
    (Cleanup c now).items =
      c.items.filter (fun p => !(isExpiredB ((c.getEntry p.2).expiresAt) now)) ∧
    Linked (Cleanup c now)
      (ns.filter (fun i => !(isExpiredB ((c.getEntry i).expiresAt) now))) ∧
    (∀ i, contentOf ((Cleanup c now).getEntry i) = contentOf (c.getEntry i)) := by
  obtain ⟨h1, h2, h3, _⟩ := cleanup_fold_linked now c.items [] c ns h rfl
    (fun p hp => absurd hp (List.not_mem_nil p))
  refine ⟨h1.trans (List.nil_append _), ?_, h3⟩
  have heq : (ns.filter (fun i =>
      !(decide (i ∈ c.items.map Prod.snd) && isExpiredB ((c.getEntry i).expiresAt) now))) =
      (ns.filter (fun i => !(isExpiredB ((c.getEntry i).expiresAt) now))) := by
    apply List.filter_congr
    intro i hi
    have hm : i ∈ c.items.map Prod.snd := h.2.2.2.1 i hi
    simp [hm]
  rw [heq] at h2
  exact h2

/-- Witness for C9: the concrete consistent cache with one non-expiring entry,
one entry already expired at time 50, and one still-fresh entry. -/
theorem C9_cleanup_exact_witness :
    Linked c9cache [2, 1, 0] ∧
    ((Cleanup c9cache 50).items =
      c9cache.items.filter (fun p => !(isExpiredB ((c9cache.getEntry p.2).expiresAt) 50)) ∧
    Linked (Cleanup c9cache 50)
      ([2, 1, 0].filter (fun i => !(isExpiredB ((c9cache.getEntry i).expiresAt) 50))) ∧
    (∀ i, contentOf ((Cleanup c9cache 50).getEntry i) =
      contentOf (c9cache.getEntry i))) :=
  ⟨by decide, C9_cleanup_exact c9cache [2, 1, 0] 50 (by decide)⟩

end Memcache
